import Mathlib

/-!
# markdown-editor-go: text utilities and editor state

A shallow embedding of `internal/utils/parser.go` and `internal/editor/editor.go`.

Go strings are modelled as Lean `String`s, i.e. as sequences of Unicode scalar values
(runes).  The standard-library routines the program calls (`strings.ToLower`,
`strings.ReplaceAll`, `strings.Map`, `strings.Fields`, `strings.Repeat`, `strings.Join`,
`unicode.IsSpace`) are transcribed on rune lists.  The Unicode lower-case table for
non-ASCII runes, the Markdown parsing library and the file system are not part of the
repository; they enter as parameters.
-/

namespace MarkdownEditor

/-! ## Standard-library string routines -/

/-- ASCII branch of `unicode.ToLower`: `'A'..'Z'` are shifted by `'a' - 'A'`. -/
def asciiLower (c : Char) : Char :=
  if 'A' ≤ c ∧ c ≤ 'Z' then Char.ofNat (c.toNat + 32) else c

/-- Go `unicode.ToLower`: runes up to `unicode.MaxASCII` take the ASCII branch, all other
runes are looked up in the Unicode case table `tbl` (standard-library data). -/
def unicodeToLower (tbl : Char → Char) (c : Char) : Char :=
  if c.toNat ≤ 0x7F then asciiLower c else tbl c

/-- Go `strings.Map`: apply `mapping` to every rune, dropping the rune when the mapping
returns a negative value (`none`). -/
def stringsMap (mapping : Char → Option Char) : List Char → List Char
  | [] => []
  | c :: cs =>
    match mapping c with
    | some r => r :: stringsMap mapping cs
    | none => stringsMap mapping cs

/-- Go `strings.ToLower`: an ASCII-only string is lower-cased bytewise, any other string
goes through `strings.Map(unicode.ToLower, s)`. -/
def stringsToLower (tbl : Char → Char) (s : List Char) : List Char :=
  if s.all (fun c => decide (c.toNat < 0x80)) then
    if s.any (fun c => decide ('A' ≤ c ∧ c ≤ 'Z')) then s.map asciiLower else s
  else stringsMap (fun c => some (unicodeToLower tbl c)) s

/-- Replacement loop of `strings.Replace` for a non-empty `old`: scan left to right; at a
position where `old` occurs write `new` and jump past the occurrence (`skip` counts the
runes of the occurrence still to be jumped), otherwise copy one rune. -/
def replaceLoop (old new : List Char) : Nat → List Char → List Char
  | _, [] => []
  | skip + 1, _ :: cs => replaceLoop old new skip cs
  | 0, c :: cs =>
    if old.isPrefixOf (c :: cs) then new ++ replaceLoop old new (old.length - 1) cs
    else c :: replaceLoop old new 0 cs

/-- Go `strings.ReplaceAll(s, old, new)`, i.e. `strings.Replace(s, old, new, -1)`: the
string is returned as is when `old == new`; an empty `old` matches before every rune and
at the end; otherwise all non-overlapping occurrences are replaced from the left. -/
def stringsReplaceAll (s old new : List Char) : List Char :=
  if old = new then s
  else if old = [] then new ++ s.flatMap (fun c => c :: new)
  else replaceLoop old new 0 s

/-- Go `unicode.IsSpace`: in Latin-1 the runes `\t \n \v \f \r`, space, U+0085 and U+00A0;
above Latin-1 the runes of the `White_Space` table. -/
def isSpace (c : Char) : Bool :=
  let r := c.toNat
  if r ≤ 0xFF then
    r = 0x09 || r = 0x0A || r = 0x0B || r = 0x0C || r = 0x0D || r = 0x20 || r = 0x85 || r = 0xA0
  else
    r = 0x1680 || (0x2000 ≤ r && r ≤ 0x200A) || r = 0x2028 || r = 0x2029 || r = 0x202F
      || r = 0x205F || r = 0x3000

/-- Scanning loop of `strings.Fields`: `cur` holds the field being read (`none` while in
white space); a field is emitted when white space or the end of input follows it. -/
def fieldsLoop : Option (List Char) → List Char → List (List Char)
  | none, [] => []
  | some f, [] => [f]
  | none, c :: cs => if isSpace c then fieldsLoop none cs else fieldsLoop (some [c]) cs
  | some f, c :: cs =>
    if isSpace c then f :: fieldsLoop none cs else fieldsLoop (some (f ++ [c])) cs

/-- Go `strings.Fields`: the maximal runs of non-space runes, in order. -/
def stringsFields (s : List Char) : List (List Char) := fieldsLoop none s

/-- Go `strings.Repeat`: panics (`none`) on a negative count. -/
def stringsRepeat (s : String) (count : Int) : Option String :=
  if count < 0 then none else some (String.join (List.replicate count.toNat s))

/-- Go `strings.Join`. -/
def stringsJoin (elems : List String) (sep : String) : String := sep.intercalate elems

/-! ## `internal/utils/parser.go` -/

/-- The rune filter passed to `strings.Map` in `slugify`: keep `a-z`, `0-9` and `-`,
return `-1` for everything else. -/
def slugKeep (r : Char) : Option Char :=
  if ('a' ≤ r ∧ r ≤ 'z') ∨ ('0' ≤ r ∧ r ≤ '9') ∨ r = '-' then some r else none

/-- `slugify` on rune lists. -/
def slugifyRunes (tbl : Char → Char) (s : List Char) : List Char :=
  let s := stringsToLower tbl s
  let s := stringsReplaceAll s [' '] ['-']
  stringsMap slugKeep s

/-- `slugify` of parser.go. -/
def slugify (tbl : Char → Char) (s : String) : String :=
  ⟨slugifyRunes tbl s.data⟩

/-- `MarkdownParser.WordCount` of parser.go on rune lists. -/
def wordCountRunes (md : List Char) : Nat :=
  let codeBlockRegex := "```[\\s\\S]*?```"
  let md := stringsReplaceAll md codeBlockRegex.data []
  let inlineCodeRegex := "`[^`]*`"
  let md := stringsReplaceAll md inlineCodeRegex.data []
  let htmlTagRegex := "<[^>]*>"
  let md := stringsReplaceAll md htmlTagRegex.data []
  let urlRegex := "\\[([^\\[]+)\\]\\([^\\)]+\\)"
  let md := stringsReplaceAll md urlRegex.data "$1".data
  let words := stringsFields md
  words.length

/-- `MarkdownParser.WordCount` of parser.go. -/
def WordCount (md : String) : Nat := wordCountRunes md.data

/-! ## Syntax tree of the Markdown library -/

/-- Kinds of container nodes other than headings. -/
inductive ContainerKind where
  | document | paragraph | blockQuote | list | listItem | strong | emph | del | link
  | table | tableRow | tableCell
  deriving DecidableEq

/-- Kinds of leaf nodes other than plain text. -/
inductive LeafKind where
  | code | codeBlock | htmlSpan | htmlBlock | softbreak | hardbreak | horizontalRule
  deriving DecidableEq

/-- Syntax tree produced by the Markdown library (`ast.Node`).  A heading is a container
carrying its `Level` (a Go `int`, here an unbounded integer); `ast.Text` is a leaf carrying
its `Literal`; every other node is a container with children or a leaf with a literal. -/
inductive Node where
  | heading (level : Int) (children : List Node)
  | text (literal : String)
  | container (kind : ContainerKind) (children : List Node)
  | leaf (kind : LeafKind) (literal : String)

/-- `ast.Node.GetChildren`: leaves have no children. -/
def Node.getChildren : Node → List Node
  | .heading _ cs => cs
  | .container _ cs => cs
  | .text _ => []
  | .leaf _ _ => []

/-- `ast.WalkStatus`. -/
inductive WalkStatus where
  | GoToNext | SkipChildren | Terminate
  deriving DecidableEq

mutual
/-- Modelled from the spec: `ast.Walk` of the Markdown library (the library is not under
src/), the pre-order depth-first traversal with an entering/exiting callback.  The
visitor is called on a node with `entering = true`, then the children of a container are
walked in order unless the visitor answered `SkipChildren`, then the visitor is called on
the container with `entering = false`; `Terminate` stops the walk.  The visitor's closure
state is threaded as `σ`; `none` is a panic inside the visitor. -/
def walk {σ : Type} (visit : σ → Node → Bool → Option (σ × WalkStatus)) :
    Node → σ → Option (σ × WalkStatus)
  | .text lit, st =>
    match visit st (.text lit) true with
    | none => none
    | some (st1, status) => if status = .Terminate then some (st1, status) else some (st1, .GoToNext)
  | .leaf k lit, st =>
    match visit st (.leaf k lit) true with
    | none => none
    | some (st1, status) => if status = .Terminate then some (st1, status) else some (st1, .GoToNext)
  | .heading lvl cs, st =>
    match visit st (.heading lvl cs) true with
    | none => none
    | some (st1, .Terminate) =>
      match visit st1 (.heading lvl cs) false with
      | none => none
      | some (st2, _) => some (st2, .Terminate)
    | some (st1, .SkipChildren) =>
      match visit st1 (.heading lvl cs) false with
      | none => none
      | some (st2, status) => if status = .Terminate then some (st2, status) else some (st2, .GoToNext)
    | some (st1, .GoToNext) =>
      match walkChildren visit cs st1 with
      | none => none
      | some (st2, .Terminate) => some (st2, .Terminate)
      | some (st2, _) =>
        match visit st2 (.heading lvl cs) false with
        | none => none
        | some (st3, status) => if status = .Terminate then some (st3, status) else some (st3, .GoToNext)
  | .container k cs, st =>
    match visit st (.container k cs) true with
    | none => none
    | some (st1, .Terminate) =>
      match visit st1 (.container k cs) false with
      | none => none
      | some (st2, _) => some (st2, .Terminate)
    | some (st1, .SkipChildren) =>
      match visit st1 (.container k cs) false with
      | none => none
      | some (st2, status) => if status = .Terminate then some (st2, status) else some (st2, .GoToNext)
    | some (st1, .GoToNext) =>
      match walkChildren visit cs st1 with
      | none => none
      | some (st2, .Terminate) => some (st2, .Terminate)
      | some (st2, _) =>
        match visit st2 (.container k cs) false with
        | none => none
        | some (st3, status) => if status = .Terminate then some (st3, status) else some (st3, .GoToNext)
/-- The loop of `ast.Walk` over the children of a container. -/
def walkChildren {σ : Type} (visit : σ → Node → Bool → Option (σ × WalkStatus)) :
    List Node → σ → Option (σ × WalkStatus)
  | [], st => some (st, .GoToNext)
  | c :: cs, st =>
    match walk visit c st with
    | none => none
    | some (st1, .Terminate) => some (st1, .Terminate)
    | some (st1, _) => walkChildren visit cs st1
end

/-- `ast.WalkFunc`: run the walk for its effect on the visitor's state. -/
def walkFunc {σ : Type} (node : Node) (visit : σ → Node → Bool → Option (σ × WalkStatus))
    (init : σ) : Option σ :=
  (walk visit node init).map Prod.fst


/-! ## Heading extraction (`internal/utils/parser.go`) -/

/-- `renderHeadingText` of parser.go: loop over `heading.Children`, writing the literal of
each child that is an `*ast.Text` to the buffer. -/
def renderHeadingText (heading : Node) : String :=
  heading.getChildren.foldl
    (fun buf child =>
      match child with
      | .text literal => buf ++ literal
      | _ => buf)
    ""

/-- The visitor closure of `ExtractTOC`, with the captured slice `headers` as state. -/
def tocVisit (tbl : Char → Char) (headers : List String) (node : Node) (entering : Bool) :
    Option (List String × WalkStatus) :=
  match node, entering with
  | .heading level cs, true =>
    let text := renderHeadingText (.heading level cs)
    let slug := slugify tbl text
    match stringsRepeat "  " (level - 1) with
    | none => none
    | some indent => some (headers ++ [indent ++ "- [" ++ text ++ "](#" ++ slug ++ ")"], .GoToNext)
  | _, _ => some (headers, .GoToNext)

/-- `MarkdownParser.ExtractTOC` of parser.go; `parse` is the library parser configured
with the extensions of the `MarkdownParser`, `none` is a panic. -/
def ExtractTOC (tbl : Char → Char) (parse : String → Node) (md : String) : Option String :=
  let node := parse md
  match walkFunc node (tocVisit tbl) [] with
  | none => none
  | some headers => some (stringsJoin headers "\n")

/-- Entry of the list returned by `ExtractHeadings` (a map with the keys `level`, `text`
and `slug`). -/
structure HeadingEntry where
  level : Int
  text : String
  slug : String
  deriving DecidableEq

/-- The visitor closure of `ExtractHeadings`, with the captured slice `headings` as state. -/
def headingsVisit (tbl : Char → Char) (headings : List HeadingEntry) (node : Node)
    (entering : Bool) : Option (List HeadingEntry × WalkStatus) :=
  match node, entering with
  | .heading level cs, true =>
    let text := renderHeadingText (.heading level cs)
    let slug := slugify tbl text
    some (headings ++ [⟨level, text, slug⟩], .GoToNext)
  | _, _ => some (headings, .GoToNext)

/-- `MarkdownParser.ExtractHeadings` of parser.go. -/
def ExtractHeadings (tbl : Char → Char) (parse : String → Node) (md : String) :
    Option (List HeadingEntry) :=
  let node := parse md
  walkFunc node (headingsVisit tbl) []

/-! ## Editor state (`internal/editor/editor.go`) -/

/-- A Go `error` value: `none` is `nil`. -/
abbrev GoError := Option String

/-- The fields of `Editor` that the file and content operations read or write.  Times are
clock readings (`time.Now()`), totally ordered; the context, the timer handle and the
stateless `fileUtils` are left out. -/
structure Editor where
  currentFilePath : String
  content : String
  lastSaveTime : Nat
  isDarkMode : Bool
  autoSaveEnabled : Bool
  autoSaveDelay : Nat
  lastEditTime : Nat
  deriving DecidableEq

/-- `NewEditor`: the composite literal reads the clock twice, first for `lastSaveTime`
(`t1`), then for `lastEditTime` (`t2`). -/
def NewEditor (t1 t2 : Nat) : Editor :=
  { currentFilePath := ""
    content := ""
    isDarkMode := false
    autoSaveEnabled := true
    autoSaveDelay := 5
    lastSaveTime := t1
    lastEditTime := t2 }

/-- `Editor.hasUnsavedChanges`: `e.lastEditTime.After(e.lastSaveTime)`. -/
def Editor.hasUnsavedChanges (e : Editor) : Bool := decide (e.lastSaveTime < e.lastEditTime)

/-- `Editor.RenderHTML`; `toHTML` is the library call `markdown.ToHTML(md, nil, nil)`. -/
def Editor.RenderHTML (toHTML : String → String) (e : Editor) : String :=
  if e.content = "" then ""
  else
    let md := e.content
    toHTML md

/-- `Editor.SetContent`; `now` is the clock reading taken by the call.  Scheduling the
autosave timer and emitting the preview event do not change the fields modelled here. -/
def Editor.SetContent (e : Editor) (content : String) (now : Nat) : Editor :=
  { e with content := content, lastEditTime := now }

/-- `Editor.SaveFileAs`; `dialog` is what `runtime.SaveFileDialog` returned, `writeErr`
what `saveToFile` returns for the chosen path, `now` the clock reading taken on success. -/
def Editor.SaveFileAs (e : Editor) (dialog : String × GoError) (writeErr : GoError)
    (now : Nat) : Editor × Bool :=
  let (filePath, err) := dialog
  if err ≠ none ∨ filePath = "" then (e, false)
  else
    match writeErr with
    | some _ => (e, false)
    | none => ({ e with currentFilePath := filePath, lastSaveTime := now }, true)

/-- `Editor.SaveFile`: without a current file the call is `SaveFileAs`, otherwise the
content is written to the current file. -/
def Editor.SaveFile (e : Editor) (dialog : String × GoError) (writeErr : GoError)
    (now : Nat) : Editor × Bool :=
  if e.currentFilePath = "" then e.SaveFileAs dialog writeErr now
  else
    match writeErr with
    | some _ => (e, false)
    | none => ({ e with lastSaveTime := now }, true)

/-- `Editor.OpenFile`; `dialog` is what `runtime.OpenFileDialog` returned, `read` what
`readFromFile` returns, `t1` the clock reading taken inside `SetContent` and `t2` the
later reading stored in `lastSaveTime`. -/
def Editor.OpenFile (e : Editor) (dialog : String × GoError) (read : String × GoError)
    (t1 t2 : Nat) : Editor × Bool :=
  let (filePath, err) := dialog
  if err ≠ none ∨ filePath = "" then (e, false)
  else
    let (content, err) := read
    match err with
    | some _ => (e, false)
    | none =>
      let e := { e with currentFilePath := filePath }
      let e := e.SetContent content t1
      ({ e with lastSaveTime := t2 }, true)

/-- `Editor.NewFile`. -/
def Editor.NewFile (e : Editor) (now : Nat) : Editor :=
  let e := { e with currentFilePath := "" }
  e.SetContent "" now

/-- One call on the editor together with what the environment answers to it: the result
of the file dialog, the outcome of the file-system access and the clock readings taken
(for a call that fails the readings are not consumed). -/
inductive Op where
  | setContent (content : String) (now : Nat)
  | newFile (now : Nat)
  | saveFile (dialog : String × GoError) (writeErr : GoError) (now : Nat)
  | saveFileAs (dialog : String × GoError) (writeErr : GoError) (now : Nat)
  | openFile (dialog : String × GoError) (read : String × GoError) (t1 t2 : Nat)
  deriving DecidableEq

/-- Clock readings of a call, in the order they are taken. -/
def Op.readings : Op → List Nat
  | .setContent _ now => [now]
  | .newFile now => [now]
  | .saveFile _ _ now => [now]
  | .saveFileAs _ _ now => [now]
  | .openFile _ _ t1 t2 => [t1, t2]

/-- State after a call. -/
def Editor.step (e : Editor) : Op → Editor
  | .setContent content now => e.SetContent content now
  | .newFile now => e.NewFile now
  | .saveFile dialog writeErr now => (e.SaveFile dialog writeErr now).1
  | .saveFileAs dialog writeErr now => (e.SaveFileAs dialog writeErr now).1
  | .openFile dialog read t1 t2 => (e.OpenFile dialog read t1 t2).1

/-- The `bool` a call returns (`none` for the calls without a result): `true` is a
successful save or load, `false` a failed or cancelled one. -/
def Editor.result (e : Editor) : Op → Option Bool
  | .setContent _ _ => none
  | .newFile _ => none
  | .saveFile dialog writeErr now => some (e.SaveFile dialog writeErr now).2
  | .saveFileAs dialog writeErr now => some (e.SaveFileAs dialog writeErr now).2
  | .openFile dialog read t1 t2 => some (e.OpenFile dialog read t1 t2).2

/-- The editor reached from `NewEditor` (clock readings `t1`, `t2`) by the calls `ops`. -/
def run (t1 t2 : Nat) (ops : List Op) : Editor := ops.foldl Editor.step (NewEditor t1 t2)

/-- All clock readings of an execution, in the order they are taken. -/
def clockReadings (t1 t2 : Nat) (ops : List Op) : List Nat :=
  t1 :: t2 :: ops.flatMap Op.readings

/-- The clock is non-decreasing along the execution. -/
def clockMonotone (t1 t2 : Nat) (ops : List Op) : Prop :=
  (clockReadings t1 t2 ops).Pairwise (fun a b => a ≤ b)

instance (t1 t2 : Nat) (ops : List Op) : Decidable (clockMonotone t1 t2 ops) := by
  unfold clockMonotone; infer_instance

/-- The dirty flag in the words of the specification: clean after `NewEditor`, dirty after
every mutation (`SetContent`, also through `NewFile`), clean after every successful save
or load, unchanged by a failed or cancelled one. -/
def specDirty : Bool → Editor → List Op → Bool
  | d, _, [] => d
  | d, e, op :: ops =>
    let d1 :=
      match e.result op with
      | none => true
      | some true => false
      | some false => d
    specDirty d1 (e.step op) ops



/-! ## Configuration (`internal/config/config.go`) -/

/-- `Config` of config.go. -/
structure Config where
  IsDarkMode : Bool
  FontSize : Int
  FontFamily : String
  TabSize : Int
  LineNumbers : Bool
  AutoSaveEnabled : Bool
  AutoSaveDelay : Int
  RecentFiles : List String
  WindowWidth : Int
  WindowHeight : Int
  configPath : String

/-- `DefaultConfig` of config.go. -/
def DefaultConfig : Config :=
  { IsDarkMode := false
    FontSize := 14
    FontFamily := "Roboto Mono, monospace"
    TabSize := 4
    LineNumbers := true
    AutoSaveEnabled := true
    AutoSaveDelay := 5
    RecentFiles := []
    WindowWidth := 1024
    WindowHeight := 768
    configPath := "" }

/-- `Config.Save` as far as it changes the configuration: an empty `configPath` is filled
in from `getConfigPath` (its answer is `resolved`) unless that fails; creating the
directory and writing the file leave the structure as it is. -/
def Config.Save (c : Config) (resolved : String × GoError) : Config :=
  if c.configPath = "" then
    match resolved.2 with
    | some _ => c
    | none => { c with configPath := resolved.1 }
  else c

/-- The `range` loop of `AddRecentFile`: the index of the first entry equal to `path`,
counting from `i`; `none` when the loop ends without a `break`. -/
def rangeFind (path : String) : List String → Nat → Option Nat
  | [], _ => none
  | file :: files, i => if file = path then some i else rangeFind path files (i + 1)

/-- `Config.AddRecentFile` of config.go: remove the first entry equal to `path`
(`append(files[:i], files[i+1:]...)`), put `path` in front, cut the list to 10 entries,
save. -/
def Config.AddRecentFile (c : Config) (path : String) (resolved : String × GoError) :
    Config :=
  let c :=
    match rangeFind path c.RecentFiles 0 with
    | some i => { c with RecentFiles := c.RecentFiles.take i ++ c.RecentFiles.drop (i + 1) }
    | none => c
  let c := { c with RecentFiles := [path] ++ c.RecentFiles }
  let c := if c.RecentFiles.length > 10 then { c with RecentFiles := c.RecentFiles.take 10 } else c
  c.Save resolved

/-! ## Specification-side definitions -/

/-- The characters a slug may contain: `a-z`, `0-9` and the hyphen. -/
def isSlugChar (c : Char) : Bool :=
  decide (('a' ≤ c ∧ c ≤ 'z') ∨ ('0' ≤ c ∧ c ≤ '9') ∨ c = '-')

/-- Slug generation in the words of the specification: (1) lower-case every character,
(2) replace each space by a hyphen, (3) drop every character that is not a lower-case
ASCII letter, an ASCII digit or a hyphen. -/
def slugifySpec (tbl : Char → Char) (s : String) : String :=
  let lowered := s.data.map (unicodeToLower tbl)
  let hyphened := lowered.map (fun c => if c = ' ' then '-' else c)
  ⟨hyphened.filter isSlugChar⟩

mutual
/-- The heading nodes of a tree in document order (pre-order, depth first): a heading
comes before the headings below it, siblings come left to right. -/
def headingNodes : Node → List Node
  | .heading level cs => .heading level cs :: headingNodesList cs
  | .container _ cs => headingNodesList cs
  | .text _ => []
  | .leaf _ _ => []
/-- The heading nodes of a list of sibling trees, in document order. -/
def headingNodesList : List Node → List Node
  | [] => []
  | c :: cs => headingNodes c ++ headingNodesList cs
end

/-- `heading.Level` (0 for a node that is not a heading). -/
def Node.level : Node → Int
  | .heading level _ => level
  | _ => 0

/-- The entry `(level, text, slug)` of a heading node. -/
def entryOf (tbl : Char → Char) (heading : Node) : HeadingEntry :=
  { level := heading.level
    text := renderHeadingText heading
    slug := slugify tbl (renderHeadingText heading) }

/-- One line of the table of contents in the words of the specification: two spaces
repeated `level - 1` times, then `- [text](#slug)`. -/
def tocLine (h : HeadingEntry) : String :=
  String.join (List.replicate (h.level - 1).toNat "  ") ++ "- [" ++ h.text ++ "](#" ++ h.slug ++ ")"

/-- The table of contents in the words of the specification (`FormatTOC`): one line per
heading, joined by single newlines, no trailing newline. -/
def FormatTOC (headings : List HeadingEntry) : String :=
  "\n".intercalate (headings.map tocLine)

/-- The literal of an `ast.Text` node, `none` for every other node. -/
def Node.textLiteral : Node → Option String
  | .text literal => some literal
  | _ => none

mutual
/-- The heading text in the words of the specification: the literals of all text nodes
below a node, in document order, so that a bold or italic span contributes its inner
text. -/
def descendantText : Node → String
  | .text literal => literal
  | .leaf _ _ => ""
  | .heading _ cs => descendantTextList cs
  | .container _ cs => descendantTextList cs
/-- The concatenated text of a list of sibling nodes. -/
def descendantTextList : List Node → String
  | [] => ""
  | c :: cs => descendantText c ++ descendantTextList cs
end

/-- A document with a level-1 heading `A`, a paragraph and a level-2 heading `B`. -/
def tocExampleTree : Node :=
  .container .document
    [.heading 1 [.text "A"],
     .container .paragraph [.text "x", .container .strong [.text "y"]],
     .heading 2 [.text "B"]]

/-- A document whose headings jump from level 1 to level 4. -/
def tocJumpTree : Node :=
  .container .document [.heading 1 [.text "A"], .heading 4 [.text "D"]]

/-- The heading `Hello **World**`: a text node followed by a bold span. -/
def boldHeading : Node :=
  .heading 1 [.text "Hello ", .container .strong [.text "World"]]

/-- The step of the `ExtractTOC` visitor on a heading. -/
def tocStep (tbl : Char → Char) (headers : List String) (heading : Node) :
    Option (List String) :=
  (stringsRepeat "  " (heading.level - 1)).map (fun indent =>
    headers ++ [indent ++ "- [" ++ renderHeadingText heading ++ "](#" ++
      slugify tbl (renderHeadingText heading) ++ ")"])

/-- Two entries of the Unicode case table of the Go standard library
(`unicode.CaseRanges`): U+0130 (capital I with dot above) has the lower-case form `i` and
U+212A (Kelvin sign) the lower-case form `k`.  Other runes are returned unchanged; the
statements that use this table evaluate it at U+212A only. -/
def caseTableFragment (c : Char) : Char :=
  if c.toNat = 0x130 then Char.ofNat 0x69
  else if c.toNat = 0x212A then Char.ofNat 0x6B
  else c

/-- A string with every non-ASCII character deleted. -/
def deleteNonASCII (s : String) : String :=
  ⟨s.data.filter (fun c => decide (c.toNat ≤ 0x7F))⟩

/-- The string that consists of the Kelvin sign U+212A. -/
def kelvinSign : String := ⟨[Char.ofNat 0x212A]⟩

/-- A character reaches the slug when its lower-case form, with a space read as a
hyphen, is one of `a-z`, `0-9`, `-`. -/
def reachesSlug (tbl : Char → Char) (c : Char) : Bool :=
  isSlugChar (if unicodeToLower tbl c = ' ' then '-' else unicodeToLower tbl c)

/-- A string with every non-ASCII character deleted that does not reach the slug. -/
def deleteLostNonASCII (tbl : Char → Char) (s : String) : String :=
  ⟨s.data.filter (fun c => decide (c.toNat ≤ 0x7F) || reachesSlug tbl c)⟩

/-- The recent-files list in the words of the claim: `p` followed by the list without
its first occurrence of `p`, cut to the first 10 entries. -/
def recentFilesSpec (files : List String) (p : String) : List String :=
  (p :: files.erase p).take 10

/-- The maximal runs of non-white-space characters of a buffer: the non-empty pieces
between white-space characters. -/
def nonSpaceRuns (s : List Char) : List (List Char) :=
  (s.splitOnP isSpace).filter (fun r => !r.isEmpty)

/-- A buffer with a code span, none of the four pattern strings of `WordCount` in it. -/
def codeSpanBuffer : String := "Hello `code span` world"

/-! ## Lemmas on the string routines -/

theorem stringsMap_some (f : Char → Char) (s : List Char) :
    stringsMap (fun c => some (f c)) s = s.map f := by
  induction s with
  | nil => rfl
  | cons c cs ih => simp [stringsMap, ih]

theorem stringsMap_slugKeep (s : List Char) : stringsMap slugKeep s = s.filter isSlugChar := by
  induction s with
  | nil => rfl
  | cons c cs ih =>
    by_cases h : ('a' ≤ c ∧ c ≤ 'z') ∨ ('0' ≤ c ∧ c ≤ '9') ∨ c = '-'
    · simp [stringsMap, slugKeep, isSlugChar, h, ih]
    · simp [stringsMap, slugKeep, isSlugChar, h, ih]

theorem asciiLower_of_not_upper (c : Char) (h : ¬ ('A' ≤ c ∧ c ≤ 'Z')) : asciiLower c = c := by
  simp [asciiLower, h]

theorem stringsToLower_eq_map (tbl : Char → Char) (s : List Char) :
    stringsToLower tbl s = s.map (unicodeToLower tbl) := by
  unfold stringsToLower
  split
  · rename_i hascii
    have hmap : s.map (unicodeToLower tbl) = s.map asciiLower := by
      apply List.map_congr_left
      intro c hc
      have := (List.all_eq_true.mp hascii) c hc
      have hlt : c.toNat < 0x80 := by simpa using this
      have hle : c.toNat ≤ 0x7F := by omega
      simp [unicodeToLower, hle]
    rw [hmap]
    split
    · rfl
    · rename_i hup
      symm
      conv => rhs; rw [← List.map_id s]
      apply List.map_congr_left
      intro c hc
      apply asciiLower_of_not_upper
      intro hcu
      apply hup
      exact List.any_eq_true.mpr ⟨c, hc, by simpa using hcu⟩
  · exact stringsMap_some _ _

theorem replaceLoop_space (s : List Char) :
    replaceLoop [' '] ['-'] 0 s = s.map (fun c => if c = ' ' then '-' else c) := by
  induction s with
  | nil => rfl
  | cons c cs ih =>
    by_cases h : c = ' '
    · subst h
      simp [replaceLoop, List.isPrefixOf, ih]
    · have h2 : ¬ (' ' = c) := fun e => h e.symm
      simp [replaceLoop, List.isPrefixOf, ih, h, h2]

theorem slugifyRunes_eq (tbl : Char → Char) (s : List Char) :
    slugifyRunes tbl s =
      ((s.map (unicodeToLower tbl)).map (fun c => if c = ' ' then '-' else c)).filter
        isSlugChar := by
  unfold slugifyRunes
  simp only [stringsToLower_eq_map, stringsMap_slugKeep]
  have : stringsReplaceAll (s.map (unicodeToLower tbl)) [' '] ['-'] =
      (s.map (unicodeToLower tbl)).map (fun c => if c = ' ' then '-' else c) := by
    unfold stringsReplaceAll
    rw [if_neg (by decide), if_neg (by decide)]
    exact replaceLoop_space _
  rw [this]

/-! ## Slug generation -/

/-- C1: `slugify` is lower-casing, then replacing every space by a hyphen, then deleting
every character outside `a-z`, `0-9`, `-`; every character of a slug lies in that set;
`slugify "Hello, World!" = "hello-world"` and `slugify "" = ""`. -/
theorem slugify_eq_spec (tbl : Char → Char) (s : String) :
    slugify tbl s = slugifySpec tbl s ∧
    (∀ c ∈ (slugify tbl s).data, ('a' ≤ c ∧ c ≤ 'z') ∨ ('0' ≤ c ∧ c ≤ '9') ∨ c = '-') ∧
    slugify tbl "Hello, World!" = "hello-world" ∧
    slugify tbl "" = "" := by
  have key : ∀ t : String, slugify tbl t = slugifySpec tbl t := by
    intro t
    simp only [slugify, slugifySpec, slugifyRunes_eq]
  refine ⟨key s, ?_, ?_, ?_⟩
  · intro c hc
    rw [key] at hc
    simp only [slugifySpec] at hc
    have := (List.mem_filter.mp hc).2
    simpa [isSlugChar] using this
  · rfl
  · rfl

/-! ## The tree walk -/

mutual
/-- A visitor that acts only when entering a heading (through `g`, which may panic) and
always answers `GoToNext` threads `g` over the heading nodes in document order. -/
theorem walk_collect {σ : Type} (visit : σ → Node → Bool → Option (σ × WalkStatus))
    (g : σ → Node → Option σ)
    (hEnter : ∀ st level cs, visit st (.heading level cs) true =
      (g st (.heading level cs)).map (fun s => (s, WalkStatus.GoToNext)))
    (hExit : ∀ st level cs, visit st (.heading level cs) false = some (st, .GoToNext))
    (hCont : ∀ st k cs b, visit st (.container k cs) b = some (st, .GoToNext))
    (hText : ∀ st lit, visit st (.text lit) true = some (st, .GoToNext))
    (hLeaf : ∀ st k lit, visit st (.leaf k lit) true = some (st, .GoToNext)) :
    ∀ (n : Node) (st : σ), walk visit n st =
      ((headingNodes n).foldlM g st).map (fun s => (s, WalkStatus.GoToNext))
  | .text lit, st => by simp [walk, hText, headingNodes]
  | .leaf k lit, st => by simp [walk, hLeaf, headingNodes]
  | .heading level cs, st => by
    rw [walk, hEnter, headingNodes, List.foldlM_cons]
    cases hg : g st (.heading level cs) with
    | none => simp
    | some st1 =>
      simp only [Option.map_some', Option.bind_eq_bind, Option.some_bind]
      rw [walkChildren_collect visit g hEnter hExit hCont hText hLeaf cs st1]
      cases hf : List.foldlM g st1 (headingNodesList cs) with
      | none => simp
      | some st2 => simp [hExit]
  | .container k cs, st => by
    rw [walk, hCont, headingNodes]
    simp only []
    rw [walkChildren_collect visit g hEnter hExit hCont hText hLeaf cs st]
    cases hf : List.foldlM g st (headingNodesList cs) with
    | none => simp
    | some st2 => simp [hCont]
/-- The loop over the children threads `g` over the heading nodes of all of them. -/
theorem walkChildren_collect {σ : Type} (visit : σ → Node → Bool → Option (σ × WalkStatus))
    (g : σ → Node → Option σ)
    (hEnter : ∀ st level cs, visit st (.heading level cs) true =
      (g st (.heading level cs)).map (fun s => (s, WalkStatus.GoToNext)))
    (hExit : ∀ st level cs, visit st (.heading level cs) false = some (st, .GoToNext))
    (hCont : ∀ st k cs b, visit st (.container k cs) b = some (st, .GoToNext))
    (hText : ∀ st lit, visit st (.text lit) true = some (st, .GoToNext))
    (hLeaf : ∀ st k lit, visit st (.leaf k lit) true = some (st, .GoToNext)) :
    ∀ (cs : List Node) (st : σ), walkChildren visit cs st =
      ((headingNodesList cs).foldlM g st).map (fun s => (s, WalkStatus.GoToNext))
  | [], st => by simp [walkChildren, headingNodesList]
  | c :: cs, st => by
    rw [walkChildren, walk_collect visit g hEnter hExit hCont hText hLeaf c st,
      headingNodesList, List.foldlM_append]
    cases hf : List.foldlM g st (headingNodes c) with
    | none => simp
    | some st1 =>
      simp only [Option.map_some', Option.bind_eq_bind, Option.some_bind]
      exact walkChildren_collect visit g hEnter hExit hCont hText hLeaf cs st1
end

theorem foldlM_append_entry {α β : Type} (f : α → β) (hs : List α) (st : List β) :
    hs.foldlM (fun (acc : List β) h => some (acc ++ [f h])) st = some (st ++ hs.map f) := by
  induction hs generalizing st with
  | nil => simp
  | cons h hs ih => simp [List.foldlM_cons, ih]

theorem stringsRepeat_indent (level : Int) (h : 1 ≤ level) :
    stringsRepeat "  " (level - 1) =
      some (String.join (List.replicate (level - 1).toNat "  ")) := by
  unfold stringsRepeat
  rw [if_neg (by omega)]

theorem foldlM_tocStep (tbl : Char → Char) (hs : List Node) (st : List String)
    (h : ∀ x ∈ hs, 1 ≤ x.level) :
    hs.foldlM (tocStep tbl) st = some (st ++ hs.map (fun x => tocLine (entryOf tbl x))) := by
  induction hs generalizing st with
  | nil => simp
  | cons x xs ih =>
    have hx : 1 ≤ x.level := h x (List.mem_cons_self _ _)
    have hxs : ∀ y ∈ xs, 1 ≤ y.level := fun y hy => h y (List.mem_cons_of_mem _ hy)
    rw [List.foldlM_cons]
    simp only [tocStep, stringsRepeat_indent _ hx, Option.map_some', Option.bind_eq_bind,
      Option.some_bind]
    have := ih (st ++ [String.join (List.replicate (x.level - 1).toNat "  ") ++ "- [" ++
      renderHeadingText x ++ "](#" ++ slugify tbl (renderHeadingText x) ++ ")"]) hxs
    simp only [tocStep] at this
    rw [this]
    simp [tocLine, entryOf]

theorem walk_tocVisit (tbl : Char → Char) (n : Node) (st : List String) :
    walk (tocVisit tbl) n st =
      ((headingNodes n).foldlM (tocStep tbl) st).map (fun s => (s, WalkStatus.GoToNext)) := by
  apply walk_collect
  · intro st level cs
    simp only [tocVisit, tocStep, Node.level]
    cases stringsRepeat "  " (level - 1) <;> rfl
  · intro st level cs; rfl
  · intro st k cs b; cases b <;> rfl
  · intro st lit; rfl
  · intro st k lit; rfl

theorem walk_headingsVisit (tbl : Char → Char) (n : Node) (st : List HeadingEntry) :
    walk (headingsVisit tbl) n st =
      some (st ++ (headingNodes n).map (entryOf tbl), WalkStatus.GoToNext) := by
  rw [walk_collect (headingsVisit tbl) (fun acc h => some (acc ++ [entryOf tbl h]))]
  · rw [foldlM_append_entry]; rfl
  · intro st level cs; rfl
  · intro st level cs; rfl
  · intro st k cs b; cases b <;> rfl
  · intro st lit; rfl
  · intro st k lit; rfl

theorem foldl_text_acc (cs : List Node) (acc : String) :
    cs.foldl (fun buf child => match child with
      | .text literal => buf ++ literal
      | _ => buf) acc =
    (cs.filterMap Node.textLiteral).foldl (fun r s => r ++ s) acc := by
  induction cs generalizing acc with
  | nil => rfl
  | cons c cs ih =>
    cases c <;> simp [List.foldl_cons, List.filterMap_cons, Node.textLiteral, ih]

/-! ## Table of contents and headings -/

/-- C2: when every heading level is at least 1, `ExtractTOC` returns the lines
`indent - [text](#slug)` of the headings in document order, with two spaces of indent per
level above 1, joined by single newlines; a tree without headings gives the empty string;
levels need not be nested (level 1 then level 4 gives indents of 0 and 6 spaces); the
headings A (level 1) and B (level 2) give the two-line example of the specification. -/
theorem ExtractTOC_eq_FormatTOC (tbl : Char → Char) (parse : String → Node) (md : String)
    (h : ∀ x ∈ headingNodes (parse md), 1 ≤ x.level) :
    ExtractTOC tbl parse md = some (FormatTOC ((headingNodes (parse md)).map (entryOf tbl))) ∧
    (headingNodes (parse md) = [] → ExtractTOC tbl parse md = some "") ∧
    ExtractTOC tbl (fun _ => tocJumpTree) md = some "- [A](#a)\n      - [D](#d)" ∧
    ExtractTOC tbl (fun _ => tocExampleTree) md = some "- [A](#a)\n  - [B](#b)" := by
  have main : ExtractTOC tbl parse md =
      some (FormatTOC ((headingNodes (parse md)).map (entryOf tbl))) := by
    simp only [ExtractTOC, walkFunc, walk_tocVisit, foldlM_tocStep tbl _ [] h]
    simp [stringsJoin, FormatTOC, Function.comp_def]
  refine ⟨main, ?_, rfl, rfl⟩
  intro hnil
  rw [main, hnil]
  rfl

/-- Witness for C2 on the example document. -/
theorem ExtractTOC_eq_FormatTOC_witness :
    (∀ x ∈ headingNodes tocExampleTree, 1 ≤ x.level) ∧
    ExtractTOC id (fun _ => tocExampleTree) "# A\nx **y**\n## B" =
      some (FormatTOC ((headingNodes tocExampleTree).map (entryOf id))) :=
  ⟨by decide, (ExtractTOC_eq_FormatTOC id (fun _ => tocExampleTree) "# A\nx **y**\n## B"
    (by decide)).1⟩

/-- C3: `ExtractHeadings` returns one entry per heading node of the tree, in document
order (pre-order, depth first): as many entries as heading nodes, the i-th entry carrying
the level of the i-th heading node. -/
theorem ExtractHeadings_preorder (tbl : Char → Char) (parse : String → Node) (md : String) :
    ∃ entries, ExtractHeadings tbl parse md = some entries ∧
      entries = (headingNodes (parse md)).map (entryOf tbl) ∧
      entries.length = (headingNodes (parse md)).length ∧
      entries.map HeadingEntry.level = (headingNodes (parse md)).map Node.level := by
  refine ⟨(headingNodes (parse md)).map (entryOf tbl), ?_, rfl, by simp, ?_⟩
  · simp [ExtractHeadings, walkFunc, walk_headingsVisit]
  · simp [List.map_map, Function.comp_def, entryOf]

/-- C4 fails as stated: for the heading `Hello **World**` the code returns `Hello `, not
the text `Hello World` of all text-bearing descendants. -/
theorem renderHeadingText_skips_bold :
    descendantText boldHeading = "Hello World" ∧
    renderHeadingText boldHeading = "Hello " ∧
    renderHeadingText boldHeading ≠ descendantText boldHeading := by
  decide

/-- C4, amended: the heading text is the concatenation, in order, of the literals of the
direct children that are text nodes; a child of any other kind, a bold or italic span
included, contributes nothing, whatever it contains. -/
theorem renderHeadingText_direct_text (level : Int) (cs : List Node) :
    renderHeadingText (.heading level cs) = String.join (cs.filterMap Node.textLiteral) ∧
    ∀ (before after : List Node) (k : ContainerKind) (inner : List Node),
      renderHeadingText (.heading level (before ++ .container k inner :: after)) =
        renderHeadingText (.heading level (before ++ after)) := by
  have key : ∀ l : List Node,
      renderHeadingText (.heading level l) = String.join (l.filterMap Node.textLiteral) := by
    intro l
    simp only [renderHeadingText, Node.getChildren, String.join]
    exact foldl_text_acc l ""
  refine ⟨key cs, ?_⟩
  intro before after k inner
  rw [key, key]
  simp [List.filterMap_append, Node.textLiteral]

/-! ## Word count -/

theorem replaceLoop_of_not_infix (old new s : List Char) (h : ¬ old <:+: s) :
    replaceLoop old new 0 s = s := by
  induction s with
  | nil => rfl
  | cons c cs ih =>
    have hpre : old.isPrefixOf (c :: cs) = false := by
      rw [Bool.eq_false_iff]
      intro hp
      exact h (List.isPrefixOf_iff_prefix.mp hp).isInfix
    have htail : ¬ old <:+: cs := fun hi => h (hi.trans (List.suffix_cons c cs).isInfix)
    simp [replaceLoop, hpre, ih htail]

theorem stringsReplaceAll_of_not_infix (s old new : List Char) (hne : old ≠ [])
    (h : ¬ old <:+: s) : stringsReplaceAll s old new = s := by
  unfold stringsReplaceAll
  by_cases hon : old = new
  · rw [if_pos hon]
  · rw [if_neg hon, if_neg hne]
    exact replaceLoop_of_not_infix old new s h

theorem not_infix_of_head_not_mem (o : Char) (os s : List Char) (h : o ∉ s) :
    ¬ (o :: os) <:+: s := by
  intro hi
  exact h (hi.subset (List.mem_cons_self o os))

theorem fieldsLoop_all_space (s : List Char) (h : ∀ c ∈ s, isSpace c = true) :
    fieldsLoop none s = [] := by
  induction s with
  | nil => rfl
  | cons c cs ih =>
    have hc : isSpace c = true := h c (List.mem_cons_self _ _)
    have hcs : ∀ d ∈ cs, isSpace d = true := fun d hd => h d (List.mem_cons_of_mem _ hd)
    simp [fieldsLoop, hc, ih hcs]

/-- C5, evaluation at the failing input: the inline-code pattern is replaced as a literal
string, so the code span stays and the buffer of the specification counts 4 words, not 2. -/
theorem WordCount_inline_code_kept : WordCount "Hello `code span` world" = 4 := by
  decide

/-- C6, evaluation at the failing input: the link pattern is replaced as a literal string,
so the link `[a](b c)` counts 2 words while its label `a` counts 1. -/
theorem WordCount_link_target_counted : WordCount "[a](b c)" = 2 ∧ WordCount "a" = 1 := by
  decide

/-- C7, evaluation at the failing input: the code-block pattern is replaced as a literal
string, so a buffer that is one fenced block around `foo bar` counts 4 words, not 0. -/
theorem WordCount_fenced_block_counted : WordCount "```\nfoo bar\n```" = 4 := by
  decide

/-- C8: a buffer that is empty or consists only of white space has word count 0. -/
theorem WordCount_whitespace (md : String) (h : ∀ c ∈ md.data, isSpace c = true) :
    WordCount md = 0 := by
  have hnot : ∀ (o : Char) (os : List Char), isSpace o = false → ¬ (o :: os) <:+: md.data := by
    intro o os ho
    apply not_infix_of_head_not_mem
    intro hmem
    rw [h o hmem] at ho
    exact Bool.noConfusion ho
  have h1 : stringsReplaceAll md.data "```[\\s\\S]*?```".data [] = md.data :=
    stringsReplaceAll_of_not_infix _ _ _ (by decide) (hnot _ _ (by decide))
  have h2 : stringsReplaceAll md.data "`[^`]*`".data [] = md.data :=
    stringsReplaceAll_of_not_infix _ _ _ (by decide) (hnot _ _ (by decide))
  have h3 : stringsReplaceAll md.data "<[^>]*>".data [] = md.data :=
    stringsReplaceAll_of_not_infix _ _ _ (by decide) (hnot _ _ (by decide))
  have h4 : stringsReplaceAll md.data "\\[([^\\[]+)\\]\\([^\\)]+\\)".data "$1".data = md.data :=
    stringsReplaceAll_of_not_infix _ _ _ (by decide) (hnot _ _ (by decide))
  simp only [WordCount, wordCountRunes, h1, h2, h3, h4, stringsFields, fieldsLoop_all_space _ h,
    List.length_nil]

/-- Witness for C8: the buffers of the specification, empty and white space only. -/
theorem WordCount_whitespace_witness :
    (∀ c ∈ "   \n\t  ".data, isSpace c = true) ∧ WordCount "   \n\t  " = 0 ∧
    WordCount "" = 0 :=
  ⟨by decide, WordCount_whitespace "   \n\t  " (by decide), by decide⟩

/-! ## Editor -/

/-- C9: with an empty buffer `RenderHTML` returns the empty string and does not call the
Markdown library, whatever the library would return for empty input. -/
theorem RenderHTML_empty (toHTML : String → String) (e : Editor) (h : e.content = "") :
    e.RenderHTML toHTML = "" := by
  simp [Editor.RenderHTML, h]

/-- Witness for C9: a fresh editor, and a library that renders a complete page even for
empty input. -/
theorem RenderHTML_empty_witness :
    (NewEditor 0 0).content = "" ∧
    (fun md => "<html>" ++ md ++ "</html>") "" ≠ "" ∧
    (NewEditor 0 0).RenderHTML (fun md => "<html>" ++ md ++ "</html>") = "" :=
  ⟨rfl, by decide, RenderHTML_empty _ (NewEditor 0 0) rfl⟩

theorem step_times (e : Editor) (op : Op) :
    (e.step op).lastSaveTime ∈ e.lastSaveTime :: op.readings ∧
    (e.step op).lastEditTime ∈ e.lastEditTime :: op.readings := by
  cases op with
  | setContent c now => simp [Editor.step, Editor.SetContent, Op.readings]
  | newFile now => simp [Editor.step, Editor.NewFile, Editor.SetContent, Op.readings]
  | saveFile d w now =>
    obtain ⟨fp, err⟩ := d
    simp only [Editor.step, Editor.SaveFile, Editor.SaveFileAs, Op.readings]
    constructor <;> (repeat' split) <;> simp
  | saveFileAs d w now =>
    obtain ⟨fp, err⟩ := d
    simp only [Editor.step, Editor.SaveFileAs, Op.readings]
    constructor <;> (repeat' split) <;> simp
  | openFile d r t1 t2 =>
    obtain ⟨fp, err⟩ := d
    obtain ⟨content, rerr⟩ := r
    simp only [Editor.step, Editor.OpenFile, Editor.SetContent, Op.readings]
    constructor <;> (repeat' split) <;> simp

theorem foldl_step_times (ops : List Op) (e : Editor) :
    (ops.foldl Editor.step e).lastSaveTime ∈ e.lastSaveTime :: ops.flatMap Op.readings ∧
    (ops.foldl Editor.step e).lastEditTime ∈ e.lastEditTime :: ops.flatMap Op.readings := by
  induction ops generalizing e with
  | nil => simp
  | cons op ops ih =>
    have h1 := step_times e op
    have h2 := ih (e.step op)
    simp only [List.foldl_cons, List.flatMap_cons, List.mem_cons, List.mem_append] at *
    constructor
    · rcases h2.1 with h | h
      · rcases h1.1 with h3 | h3
        · left; rw [h, h3]
        · right; left; rw [h]; exact h3
      · right; right; exact h
    · rcases h2.2 with h | h
      · rcases h1.2 with h3 | h3
        · left; rw [h, h3]
        · right; left; rw [h]; exact h3
      · right; right; exact h

theorem run_times_le (t1 t2 : Nat) (ops : List Op) (op : Op)
    (h : clockMonotone t1 t2 (ops ++ [op])) :
    ∀ r ∈ op.readings, (run t1 t2 ops).lastSaveTime ≤ r ∧ (run t1 t2 ops).lastEditTime ≤ r := by
  intro r hr
  have hmem := foldl_step_times ops (NewEditor t1 t2)
  have hpw : (([t1, t2] ++ ops.flatMap Op.readings) ++ op.readings).Pairwise
      (fun a b => a ≤ b) := by
    simpa [clockMonotone, clockReadings, List.flatMap_append] using h
  have hle := (List.pairwise_append.mp hpw).2.2
  constructor
  · apply hle _ _ r hr
    have := hmem.1
    simp only [NewEditor, List.mem_cons] at this
    simp only [List.cons_append, List.nil_append, List.mem_cons, run]
    rcases this with h | h
    · left; exact h
    · right; right; exact h
  · apply hle _ _ r hr
    have := hmem.2
    simp only [NewEditor, List.mem_cons] at this
    simp only [List.cons_append, List.nil_append, List.mem_cons, run]
    rcases this with h | h
    · right; left; exact h
    · right; right; exact h

theorem readings_pairwise (t1 t2 : Nat) (ops : List Op) (op : Op)
    (h : clockMonotone t1 t2 (ops ++ [op])) : op.readings.Pairwise (fun a b => a ≤ b) := by
  have hpw : (([t1, t2] ++ ops.flatMap Op.readings) ++ op.readings).Pairwise
      (fun a b => a ≤ b) := by
    simpa [clockMonotone, clockReadings, List.flatMap_append] using h
  exact (List.pairwise_append.mp hpw).2.1

/-- C10 fails as stated.  Under a non-decreasing clock a fresh editor whose two clock
readings differ reports unsaved changes although nothing was mutated, and a `SetContent`
whose clock reading equals the time of the last save leaves the flag false although the
buffer was mutated. -/
theorem dirty_flag_counterexample :
    (clockMonotone 0 1 [] ∧
      (run 0 1 []).hasUnsavedChanges = true ∧
      specDirty false (NewEditor 0 1) [] = false) ∧
    (clockMonotone 0 0 [.setContent "x" 0] ∧
      (run 0 0 [.setContent "x" 0]).hasUnsavedChanges = false ∧
      specDirty false (NewEditor 0 0) [.setContent "x" 0] = true) := by
  decide

/-- C10, amended: in every state reachable from `NewEditor` under a non-decreasing clock,
a successful `SaveFile`, `SaveFileAs` or `OpenFile` leaves `hasUnsavedChanges()` false, a
failed or cancelled one leaves the editor unchanged, and after `SetContent` or `NewFile`
the flag is true exactly when the clock reading of that call is strictly later than the
time of the last save or load. -/
theorem dirty_flag_after_step (t1 t2 : Nat) (ops : List Op) (op : Op)
    (h : clockMonotone t1 t2 (ops ++ [op])) :
    ((run t1 t2 ops).result op = some true →
      ((run t1 t2 ops).step op).hasUnsavedChanges = false) ∧
    ((run t1 t2 ops).result op = some false → (run t1 t2 ops).step op = run t1 t2 ops) ∧
    (∀ content now, op = .setContent content now →
      (((run t1 t2 ops).step op).hasUnsavedChanges = true ↔
        (run t1 t2 ops).lastSaveTime < now)) ∧
    (∀ now, op = .newFile now →
      (((run t1 t2 ops).step op).hasUnsavedChanges = true ↔
        (run t1 t2 ops).lastSaveTime < now)) := by
  have hle := run_times_le t1 t2 ops op h
  have hpw := readings_pairwise t1 t2 ops op h
  generalize run t1 t2 ops = e at hle ⊢
  refine ⟨?_, ?_, ?_, ?_⟩
  · intro hres
    cases op with
    | setContent c now => simp [Editor.result] at hres
    | newFile now => simp [Editor.result] at hres
    | saveFile d w now =>
      obtain ⟨fp, err⟩ := d
      have hnow := (hle now (by simp [Op.readings])).2
      simp only [Editor.result, Editor.SaveFile, Editor.SaveFileAs, Option.some.injEq] at hres
      simp only [Editor.step, Editor.SaveFile, Editor.SaveFileAs, Editor.hasUnsavedChanges]
      (repeat' split) <;> (repeat' split at hres) <;> simp_all
    | saveFileAs d w now =>
      obtain ⟨fp, err⟩ := d
      have hnow := (hle now (by simp [Op.readings])).2
      simp only [Editor.result, Editor.SaveFileAs, Option.some.injEq] at hres
      simp only [Editor.step, Editor.SaveFileAs, Editor.hasUnsavedChanges]
      (repeat' split) <;> (repeat' split at hres) <;> simp_all
    | openFile d r u1 u2 =>
      obtain ⟨fp, err⟩ := d
      obtain ⟨content, rerr⟩ := r
      have hu : u1 ≤ u2 := by simpa [Op.readings] using hpw
      simp only [Editor.result, Editor.OpenFile, Option.some.injEq] at hres
      simp only [Editor.step, Editor.OpenFile, Editor.SetContent, Editor.hasUnsavedChanges]
      (repeat' split) <;> (repeat' split at hres) <;> simp_all
  · intro hres
    cases op with
    | setContent c now => simp [Editor.result] at hres
    | newFile now => simp [Editor.result] at hres
    | saveFile d w now =>
      obtain ⟨fp, err⟩ := d
      simp only [Editor.result, Editor.SaveFile, Editor.SaveFileAs, Option.some.injEq] at hres
      simp only [Editor.step, Editor.SaveFile, Editor.SaveFileAs]
      (repeat' split) <;> (repeat' split at hres) <;> simp_all
    | saveFileAs d w now =>
      obtain ⟨fp, err⟩ := d
      simp only [Editor.result, Editor.SaveFileAs, Option.some.injEq] at hres
      simp only [Editor.step, Editor.SaveFileAs]
      (repeat' split) <;> (repeat' split at hres) <;> simp_all
    | openFile d r u1 u2 =>
      obtain ⟨fp, err⟩ := d
      obtain ⟨content, rerr⟩ := r
      simp only [Editor.result, Editor.OpenFile, Option.some.injEq] at hres
      simp only [Editor.step, Editor.OpenFile]
      (repeat' split) <;> (repeat' split at hres) <;> simp_all
  · intro content now hop
    subst hop
    simp [Editor.step, Editor.SetContent, Editor.hasUnsavedChanges]
  · intro now hop
    subst hop
    simp [Editor.step, Editor.NewFile, Editor.SetContent, Editor.hasUnsavedChanges]

/-- Witness for C10: open a file, edit it, fail to save, then save, under a clock that
ticks between calls. -/
theorem dirty_flag_after_step_witness :
    clockMonotone 0 1
      ([.openFile ("a.md", none) ("text", none) 2 3, .setContent "x" 4,
        .saveFile ("", none) (some "disk full") 5] ++ [.saveFile ("", none) none 6]) ∧
    ((run 0 1 [.openFile ("a.md", none) ("text", none) 2 3, .setContent "x" 4,
        .saveFile ("", none) (some "disk full") 5]).step
      (.saveFile ("", none) none 6)).hasUnsavedChanges = false :=
  ⟨by decide,
    (dirty_flag_after_step 0 1
      [.openFile ("a.md", none) ("text", none) 2 3, .setContent "x" 4,
        .saveFile ("", none) (some "disk full") 5]
      (.saveFile ("", none) none 6) (by decide)).1 (by decide)⟩

/-! ## Slugs and non-ASCII text -/

theorem slugChar_facts (c : Char)
    (h : ('a' ≤ c ∧ c ≤ 'z') ∨ ('0' ≤ c ∧ c ≤ '9') ∨ c = '-') :
    c.toNat ≤ 0x7F ∧ ¬ ('A' ≤ c ∧ c ≤ 'Z') ∧ c ≠ ' ' := by
  have e1 : ∀ a b : Char, a ≤ b ↔ a.toNat ≤ b.toNat := fun a b => Iff.rfl
  simp only [e1] at h ⊢
  have e2 : c ≠ ' ' ↔ c.toNat ≠ (' ' : Char).toNat := by
    constructor
    · intro hc hn; exact hc (Char.ext (UInt32.ext hn))
    · intro hn hc; exact hn (by rw [hc])
  rw [e2]
  have e3 : c = '-' → c.toNat = 45 := by intro hc; rw [hc]; rfl
  have ha : ('a' : Char).toNat = 97 := rfl
  have hz : ('z' : Char).toNat = 122 := rfl
  have h0 : ('0' : Char).toNat = 48 := rfl
  have h9 : ('9' : Char).toNat = 57 := rfl
  have hA : ('A' : Char).toNat = 65 := rfl
  have hZ : ('Z' : Char).toNat = 90 := rfl
  have hs : (' ' : Char).toNat = 32 := rfl
  rw [ha, hz, h0, h9] at h
  rw [hA, hZ, hs]
  rcases h with h | h | h
  · omega
  · omega
  · have := e3 h; omega

theorem slugChar_fixed (tbl : Char → Char) (c : Char) (h : isSlugChar c = true) :
    unicodeToLower tbl c = c ∧ (if c = ' ' then '-' else c) = c := by
  have hc : ('a' ≤ c ∧ c ≤ 'z') ∨ ('0' ≤ c ∧ c ≤ '9') ∨ c = '-' := by
    simpa [isSlugChar] using h
  obtain ⟨h1, h2, h3⟩ := slugChar_facts c hc
  constructor
  · simp only [unicodeToLower, if_pos h1]
    exact asciiLower_of_not_upper c h2
  · rw [if_neg h3]

theorem slug_pipeline_fixed (tbl : Char → Char) (m : List Char)
    (h : ∀ c ∈ m, isSlugChar c = true) :
    ((m.map (unicodeToLower tbl)).map (fun c => if c = ' ' then '-' else c)).filter
      isSlugChar = m := by
  induction m with
  | nil => rfl
  | cons c cs ih =>
    have hc := h c (List.mem_cons_self _ _)
    have hcs : ∀ d ∈ cs, isSlugChar d = true := fun d hd => h d (List.mem_cons_of_mem _ hd)
    obtain ⟨h1, h2⟩ := slugChar_fixed tbl c hc
    simp only [List.map_cons, h1, h2, List.filter_cons, hc, if_true, ih hcs]

theorem slug_pipeline_filter (tbl : Char → Char) (q : Char → Bool) (l : List Char)
    (h : ∀ c, q c = false → reachesSlug tbl c = false) :
    (((l.filter q).map (unicodeToLower tbl)).map (fun c => if c = ' ' then '-' else c)).filter
      isSlugChar =
    ((l.map (unicodeToLower tbl)).map (fun c => if c = ' ' then '-' else c)).filter
      isSlugChar := by
  induction l with
  | nil => rfl
  | cons c cs ih =>
    cases hq : q c with
    | true => simp only [List.filter_cons, hq, if_true, List.map_cons, ih]
    | false =>
      have hr := h c hq
      simp only [reachesSlug] at hr
      rw [List.filter_cons, if_neg (by simp [hq]), List.map_cons, List.map_cons,
        List.filter_cons, if_neg (by simp [hr])]
      exact ih

/-- C11 fails as stated: with the lower-case form `k` of the Kelvin sign U+212A, the slug
of the string that is this one non-ASCII character is `k`, while the slug of the string
with the non-ASCII characters deleted is empty. -/
theorem slugify_kelvin_counterexample :
    deleteNonASCII kelvinSign = "" ∧
    slugify caseTableFragment kelvinSign = "k" ∧
    slugify caseTableFragment (deleteNonASCII kelvinSign) = "" ∧
    slugify caseTableFragment kelvinSign ≠
      slugify caseTableFragment (deleteNonASCII kelvinSign) := by
  decide

/-- C11, amended: a non-ASCII character contributes nothing to the slug unless its
lower-case form is an ASCII letter, digit, hyphen or space: the slug of `s` is the slug
of `s` with every other non-ASCII character deleted. -/
theorem slugify_drops_lost_nonASCII (tbl : Char → Char) (s : String) :
    slugify tbl s = slugify tbl (deleteLostNonASCII tbl s) := by
  simp only [slugify, deleteLostNonASCII, slugifyRunes_eq]
  rw [slug_pipeline_filter]
  intro c hq
  simp only [Bool.or_eq_false_iff] at hq
  exact hq.2

/-- C15: `slugify` is idempotent. -/
theorem slugify_idempotent (tbl : Char → Char) (s : String) :
    slugify tbl (slugify tbl s) = slugify tbl s := by
  simp only [slugify, slugifyRunes_eq]
  rw [slug_pipeline_fixed]
  intro c hc
  exact (List.mem_filter.mp hc).2

/-! ## Recent files -/

theorem rangeFind_erase (p : String) (files : List String) (i : Nat) :
    match rangeFind p files i with
    | some k => i ≤ k ∧ files.take (k - i) ++ files.drop (k - i + 1) = files.erase p
    | none => files.erase p = files := by
  induction files generalizing i with
  | nil => simp [rangeFind]
  | cons f fs ih =>
    by_cases hf : f = p
    · subst hf
      simp [rangeFind]
    · have hne : (f == p) = false := by simpa using hf
      have := ih (i + 1)
      simp only [rangeFind, if_neg hf, List.erase_cons, hne]
      cases hr : rangeFind p fs (i + 1) with
      | none =>
        rw [hr] at this
        simp only [] at this ⊢
        simp [this]
      | some k =>
        rw [hr] at this
        simp only [] at this ⊢
        obtain ⟨hk, heq⟩ := this
        have hki : k - i = (k - (i + 1)) + 1 := by omega
        refine ⟨by omega, ?_⟩
        rw [hki, List.take_succ_cons, List.drop_succ_cons, List.cons_append, heq]
        simp

theorem Save_RecentFiles (c : Config) (resolved : String × GoError) :
    (c.Save resolved).RecentFiles = c.RecentFiles := by
  unfold Config.Save
  split
  · split <;> rfl
  · rfl

/-- C12: after `AddRecentFile(p)` the recent-files list is the first 10 entries of `p`
followed by the old list without its first occurrence of `p`; `p` is at the front and
the list has at most 10 entries. -/
theorem AddRecentFile_spec (c : Config) (p : String) (resolved : String × GoError) :
    (c.AddRecentFile p resolved).RecentFiles = recentFilesSpec c.RecentFiles p ∧
    (c.AddRecentFile p resolved).RecentFiles.head? = some p ∧
    (c.AddRecentFile p resolved).RecentFiles.length ≤ 10 := by
  have main : (c.AddRecentFile p resolved).RecentFiles = recentFilesSpec c.RecentFiles p := by
    have hfind := rangeFind_erase p c.RecentFiles 0
    simp only [Config.AddRecentFile, Save_RecentFiles, recentFilesSpec]
    cases hr : rangeFind p c.RecentFiles 0 with
    | none =>
      rw [hr] at hfind
      simp only [] at hfind ⊢
      rw [hfind]
      split
      · rfl
      · rename_i hlen
        simp only [List.singleton_append, not_lt] at hlen ⊢
        exact (List.take_of_length_le hlen).symm
    | some k =>
      rw [hr] at hfind
      simp only [Nat.sub_zero] at hfind ⊢
      rw [hfind.2]
      split
      · rfl
      · rename_i hlen
        simp only [List.singleton_append, not_lt] at hlen ⊢
        exact (List.take_of_length_le hlen).symm
  refine ⟨main, ?_, ?_⟩
  · rw [main]; simp [recentFilesSpec]
  · rw [main]; simp [recentFilesSpec]

/-! ## Word count on buffers without the pattern strings -/

theorem fieldsLoop_eq_split (s : List Char) :
    (∀ f : List Char, f ≠ [] → fieldsLoop (some f) s =
      ((s.splitOnP isSpace).modifyHead (fun r => f ++ r)).filter (fun r => !r.isEmpty)) ∧
    fieldsLoop none s = (s.splitOnP isSpace).filter (fun r => !r.isEmpty) := by
  induction s with
  | nil =>
    constructor
    · intro f hf
      cases f with
      | nil => exact absurd rfl hf
      | cons a as => simp [fieldsLoop, List.splitOnP_nil, List.modifyHead]
    · simp [fieldsLoop, List.splitOnP_nil]
  | cons c cs ih =>
    obtain ⟨ihs, ihn⟩ := ih
    rw [List.splitOnP_cons]
    cases hc : isSpace c with
    | true =>
      constructor
      · intro f hf
        cases f with
        | nil => exact absurd rfl hf
        | cons a as => simp [fieldsLoop, hc, ihn, List.modifyHead]
      · simp [fieldsLoop, hc, ihn]
    | false =>
      constructor
      · intro f hf
        have hfc : f ++ [c] ≠ [] := by simp
        simp only [fieldsLoop, hc, Bool.false_eq_true, if_false, ihs _ hfc,
          List.modifyHead_modifyHead]
        congr 2
        funext r
        simp
      · have hcne : [c] ≠ [] := by simp
        simp only [fieldsLoop, hc, Bool.false_eq_true, if_false, ihs _ hcne]
        congr 2

/-- C13: on a buffer that contains none of the four pattern strings as a substring the
replacements change nothing, and `WordCount` is the number of maximal runs of
non-white-space characters of the unmodified buffer. -/
theorem WordCount_eq_runs (md : String)
    (h1 : ¬ "```[\\s\\S]*?```".data <:+: md.data)
    (h2 : ¬ "`[^`]*`".data <:+: md.data)
    (h3 : ¬ "<[^>]*>".data <:+: md.data)
    (h4 : ¬ "\\[([^\\[]+)\\]\\([^\\)]+\\)".data <:+: md.data) :
    WordCount md = (nonSpaceRuns md.data).length := by
  have e1 : stringsReplaceAll md.data "```[\\s\\S]*?```".data [] = md.data :=
    stringsReplaceAll_of_not_infix _ _ _ (by decide) h1
  have e2 : stringsReplaceAll md.data "`[^`]*`".data [] = md.data :=
    stringsReplaceAll_of_not_infix _ _ _ (by decide) h2
  have e3 : stringsReplaceAll md.data "<[^>]*>".data [] = md.data :=
    stringsReplaceAll_of_not_infix _ _ _ (by decide) h3
  have e4 : stringsReplaceAll md.data "\\[([^\\[]+)\\]\\([^\\)]+\\)".data "$1".data = md.data :=
    stringsReplaceAll_of_not_infix _ _ _ (by decide) h4
  simp only [WordCount, wordCountRunes, e1, e2, e3, e4, stringsFields, nonSpaceRuns,
    (fieldsLoop_eq_split md.data).2]

/-- Witness for C13: the code span of the specification's example is counted, 4 words. -/
theorem WordCount_eq_runs_witness :
    (¬ "```[\\s\\S]*?```".data <:+: codeSpanBuffer.data) ∧
    (¬ "`[^`]*`".data <:+: codeSpanBuffer.data) ∧
    (¬ "<[^>]*>".data <:+: codeSpanBuffer.data) ∧
    (¬ "\\[([^\\[]+)\\]\\([^\\)]+\\)".data <:+: codeSpanBuffer.data) ∧
    WordCount codeSpanBuffer = (nonSpaceRuns codeSpanBuffer.data).length ∧
    (nonSpaceRuns codeSpanBuffer.data).length = 4 :=
  ⟨by decide, by decide, by decide, by decide,
    WordCount_eq_runs codeSpanBuffer (by decide) (by decide) (by decide) (by decide),
    by decide⟩

/-! ## Agreement of the two heading walks -/

/-- C14: when every heading level is at least 1, `ExtractTOC` returns the newline-join of
the lines `indent - [text](#slug)` built from the entries that `ExtractHeadings` returns
for the same tree, in the same order, and every entry has `slug = slugify text`; for the
headings A (level 1) and D (level 4) the entries are `(1, A, a)`, `(4, D, d)` and the
table of contents is the two lines with 0 and 6 spaces of indent. -/
theorem ExtractTOC_agrees_ExtractHeadings (tbl : Char → Char) (parse : String → Node)
    (md : String) (h : ∀ x ∈ headingNodes (parse md), 1 ≤ x.level) :
    (∃ entries, ExtractHeadings tbl parse md = some entries ∧
      ExtractTOC tbl parse md = some ("\n".intercalate (entries.map tocLine)) ∧
      ∀ e ∈ entries, e.slug = slugify tbl e.text) ∧
    ExtractHeadings tbl (fun _ => tocJumpTree) md = some [⟨1, "A", "a"⟩, ⟨4, "D", "d"⟩] ∧
    ExtractTOC tbl (fun _ => tocJumpTree) md = some "- [A](#a)\n      - [D](#d)" ∧
    "\n".intercalate (([⟨1, "A", "a"⟩, ⟨4, "D", "d"⟩] : List HeadingEntry).map tocLine) =
      "- [A](#a)\n      - [D](#d)" := by
  refine ⟨⟨(headingNodes (parse md)).map (entryOf tbl), ?_, ?_, ?_⟩, rfl, rfl, by decide⟩
  · simp [ExtractHeadings, walkFunc, walk_headingsVisit]
  · simp only [ExtractTOC, walkFunc, walk_tocVisit, foldlM_tocStep tbl _ [] h]
    simp [stringsJoin, Function.comp_def]
  · intro e he
    obtain ⟨x, _, rfl⟩ := List.mem_map.mp he
    rfl

/-- Witness for C14 on the document whose headings jump from level 1 to level 4. -/
theorem ExtractTOC_agrees_ExtractHeadings_witness :
    (∀ x ∈ headingNodes tocJumpTree, 1 ≤ x.level) ∧
    ∃ entries, ExtractHeadings id (fun _ => tocJumpTree) "# A\n#### D" = some entries ∧
      ExtractTOC id (fun _ => tocJumpTree) "# A\n#### D" =
        some ("\n".intercalate (entries.map tocLine)) ∧
      ∀ e ∈ entries, e.slug = slugify id e.text :=
  ⟨by decide, (ExtractTOC_agrees_ExtractHeadings id (fun _ => tocJumpTree) "# A\n#### D"
    (by decide)).1⟩

end MarkdownEditor
